import Mathlib

/-!
# Verification of the f16 / bf16 codec (`Float16bits.cpp`)

This file is a shallow embedding, over `Nat` bit patterns, of the conversion
routines in `mlir/lib/ExecutionEngine/Float16bits.cpp`:

* `float2half`  : binary32 pattern → 16-bit f16 pattern (round-to-nearest-even),
* `half2float`  : 16-bit f16 pattern → binary32 pattern (exact),
* `float2bfloat`: binary32 pattern → 16-bit bf16 pattern (round-to-nearest-even),
* `bfloat2float`: 16-bit bf16 pattern → binary32 pattern (exact),
* the ABI shims `__truncsfbf2` / `__truncdfbf2`.

Machine integers (`uint16_t`, `uint32_t`) are represented as `Nat` with explicit
`% 2 ^ 16` / `% 2 ^ 32` truncation wherever the C code performs a cast or an
addition/subtraction that can wrap.

The C code performs three operations on host IEEE-754 floating point values
(everything else is integer arithmetic on the raw bit patterns):

* `f.f += denormMagic.f` in `float2half`,
* `f.f -= kF32Magic.f` in `half2float`,
* `static_cast<float>(d)` in `__truncdfbf2`.

These are embedded through an exact-value semantics: `val32`/`val64` give the
real value of a nonnegative finite binary32/binary64 pattern as an integer in
units of `2 ^ (-149)` (resp. `2 ^ (-1074)`), the exact sum/difference is formed
in those units, and `encodeB32` rounds the exact result back to the nearest
binary32 pattern with ties to even — which is precisely the IEEE-754 semantics
of the host operations (both additions operate on nonnegative values in ranges
where no overflow to infinity can occur).
-/

namespace Float16bits

/-! ## Source constants (`Float16bits.cpp`, lines 30–34, 39–42, 109) -/

def kF32MantiBits : Nat := 23

def kF32HalfMantiBitDiff : Nat := 13

def kF32HalfBitDiff : Nat := 16

/-- Bit pattern of the constant `kF32Magic` (`{113 << kF32MantiBits}`). -/
def kF32MagicU : Nat := 113 <<< kF32MantiBits

def kF32HalfExpAdjust : Nat := (127 - 15) <<< kF32MantiBits

def kF32BfMantiBitDiff : Nat := 16

/-! ## Exact-value semantics of IEEE-754 patterns -/

/-- `⌊log₂ v⌋` for `v < 2 ^ 4096` (and `0` for `v = 0`), computed by a fixed
binary decomposition so that kernel evaluation stays cheap.  The fold keeps the
invariant `v₀ = v · 2 ^ acc` with `v` shrinking; after the final step `v ≤ 1`
and `acc` is the floor of the logarithm. -/
def log2step (p : Nat × Nat) (s : Nat) : Nat × Nat :=
  if p.1 >>> s = 0 then p else (p.1 >>> s, p.2 + s)

def floorLog2 (v : Nat) : Nat :=
  ([2048, 1024, 512, 256, 128, 64, 32, 16, 8, 4, 2, 1].foldl log2step (v, 0)).2

/-- Value of the nonnegative finite binary32 pattern `u` (no sign bit, i.e.
`u < 2 ^ 31`) in units of `2 ^ (-149)`:  biased exponent `0` means a subnormal
`m · 2 ^ (-149)`, biased exponent `E ≥ 1` means `(2 ^ 23 + m) · 2 ^ (E - 150)`. -/
def val32 (u : Nat) : Nat :=
  let E := u >>> 23
  let m := u &&& (2 ^ 23 - 1)
  if E = 0 then m else (2 ^ 23 + m) <<< (E - 1)

/-- Value of the nonnegative finite binary64 pattern `u` (no sign bit) in units
of `2 ^ (-1074)`. -/
def val64 (u : Nat) : Nat :=
  let E := u >>> 52
  let m := u &&& (2 ^ 52 - 1)
  if E = 0 then m else (2 ^ 52 + m) <<< (E - 1)

/-- Round `n` to the nearest multiple of `2 ^ k`, ties to the even multiple.
(`1 <<< k` is `2 ^ k`; the shift form keeps evaluation cheap.) -/
def rne (n k : Nat) : Nat :=
  let q := n >>> k
  let r := n % (1 <<< k)
  if 2 * r < 1 <<< k then q <<< k
  else if 1 <<< k < 2 * r then (q + 1) <<< k
  else if q % 2 = 0 then q <<< k else (q + 1) <<< k

/-- Round-to-nearest-even binary32 encoding of the exact nonnegative value
`v · 2 ^ (-(149 + k0))`: returns the (sign-free) binary32 pattern closest to
that value, with ties to even, saturating to the Infinity pattern on overflow.
`k0 = 0` is used for values given in binary32 units (`2 ^ (-149)`), `k0 = 925`
for values given in binary64 units (`2 ^ (-1074)`).  The subnormal ulp
`2 ^ (-149)` is `2 ^ k0` in these units; a normal pattern with biased exponent
`E ≥ 1` and mantissa `m` denotes `(2 ^ 23 + m) · 2 ^ (E - 1 + k0)` units. -/
def encodeB32 (k0 v : Nat) : Nat :=
  if v = 0 then 0
  else
    let b := floorLog2 v + 1
    let k := max (b - 24) k0
    let n := rne v k
    let k := if n >>> k = 2 ^ 24 then k + 1 else k
    if k = k0 then n >>> k0
    else
      let e := k - k0 + 1
      if 255 ≤ e then 255 <<< 23 else (e <<< 23) + (n >>> k - 2 ^ 23)

/-! ## The codec (`Float16bits.cpp`, lines 38–135) -/

/-- `float2half` (lines 38–81): constructs the 16-bit f16 pattern for the
binary32 pattern `fu`, following the source line by line.  The host-float line
`f.f += denormMagic.f` is embedded as the exact sum of the two operand values
rounded to the nearest binary32 (round-to-nearest-even); the uint32 subtraction
`f.u - denormMagic.u` and every `static_cast<uint16_t>` keep their wraparound
semantics via `% 2 ^ 32` / `% 2 ^ 16`. -/
def float2half (fu : Nat) : Nat :=
  let inf : Nat := 255 <<< kF32MantiBits
  let f16max : Nat := (127 + 16) <<< kF32MantiBits
  let denormMagic : Nat := ((127 - 15) + (kF32MantiBits - 10) + 1) <<< kF32MantiBits
  let signMask : Nat := 0x80000000
  let sign := fu &&& signMask
  let f := fu ^^^ sign
  let halfValue :=
    if f16max ≤ f then
      -- Inf or NaN (all exponent bits set): NaN->qNaN and Inf->Inf
      if inf < f then 0x7e00 else 0x7c00
    else if f < kF32MagicU then
      -- the resulting FP16 is subnormal or zero; `f.f += denormMagic.f`
      let fAdd := encodeB32 0 (val32 f + val32 denormMagic)
      (fAdd + (2 ^ 32 - denormMagic)) % 2 ^ 32 % 2 ^ 16
    else
      let mantOdd := (f >>> kF32HalfMantiBitDiff) &&& 1
      let f1 := (f + 0xc8000fff) % 2 ^ 32
      let f2 := (f1 + mantOdd) % 2 ^ 32
      (f2 >>> kF32HalfMantiBitDiff) % 2 ^ 16
  halfValue ||| (sign >>> kF32HalfBitDiff) % 2 ^ 16

/-- `half2float` (lines 85–107): converts the 16-bit f16 pattern to a binary32
pattern.  The host-float line `f.f -= kF32Magic.f` is embedded as the exact
difference of the two operand values (nonnegative: in that branch `f.u` has
biased exponent field `113` and `kF32Magic` is `113 << 23`) rounded to the
nearest binary32 — the difference is exactly representable, so no rounding
actually occurs. -/
def half2float (halfValue : Nat) : Nat :=
  let shiftedExp : Nat := 0x7c00 <<< kF32HalfMantiBitDiff
  let f0 := ((halfValue &&& 0x7fff) <<< kF32HalfMantiBitDiff) % 2 ^ 32
  let exp := shiftedExp &&& f0
  let f1 := (f0 + kF32HalfExpAdjust) % 2 ^ 32
  let f2 :=
    if exp = shiftedExp then
      -- Inf/NaN
      (f1 + kF32HalfExpAdjust) % 2 ^ 32
    else if exp = 0 then
      -- Zero/Denormal: `f.u += 1 << kF32MantiBits` then `f.f -= kF32Magic.f`
      let f1' := (f1 + (1 <<< kF32MantiBits)) % 2 ^ 32
      encodeB32 0 (val32 f1' - val32 kF32MagicU)
    else f1
  f2 ||| ((halfValue &&& 0x8000) <<< kF32HalfBitDiff) % 2 ^ 32

/-- `std::isnan` on a binary32 pattern: the magnitude bits strictly exceed the
canonical Infinity pattern `255 << 23`. -/
def isnan32 (fu : Nat) : Bool := 255 <<< kF32MantiBits < fu % 2 ^ 31

/-- `std::signbit` on a binary32 pattern: bit 31 is set. -/
def signbit32 (fu : Nat) : Bool := 2 ^ 31 ≤ fu % 2 ^ 32

/-- `float2bfloat` (lines 113–127): constructs the 16-bit bf16 pattern for the
binary32 pattern `fu`. -/
def float2bfloat (fu : Nat) : Nat :=
  if isnan32 fu then
    if signbit32 fu then 0xFFC0 else 0x7FC0
  else
    -- least significant bit of the resulting bfloat
    let lsb := (fu >>> kF32BfMantiBitDiff) &&& 1
    let roundingBias := 0x7fff + lsb
    let fu' := (fu + roundingBias) % 2 ^ 32
    (fu' >>> kF32BfMantiBitDiff) % 2 ^ 16

/-- `bfloat2float` (lines 131–135): zero-extends the 16-bit bf16 pattern into
the high half of a 32-bit pattern. -/
def bfloat2float (bfloatBits : Nat) : Nat :=
  (bfloatBits % 2 ^ 16) <<< kF32BfMantiBitDiff

/-! ## ABI shims (`Float16bits.cpp`, lines 179–193) -/

/-- `__truncsfbf2` (lines 179–185): converts via `float2bfloat` and returns the
16-bit pattern copied into the low bytes of the zero-initialized ABI carrier,
so the carrier's value is the zero-extended pattern. -/
def truncsfbf2 (fu : Nat) : Nat := float2bfloat fu

/-- `static_cast<float>(d)`: IEEE-754 narrowing of a binary64 pattern to a
binary32 pattern, round-to-nearest-even.  A NaN is quietened with its payload's
top bits kept (as on x86 `cvtsd2ss`); the payload handling is irrelevant to the
theorems below. -/
def f64tof32 (d : Nat) : Nat :=
  let sign := (d % 2 ^ 64) >>> 63
  let mag := d % 2 ^ 63
  let res :=
    if 0x7ff0000000000000 < mag then
      0x7f800000 ||| (1 <<< 22) ||| ((mag &&& (2 ^ 52 - 1)) >>> 29)
    else
      encodeB32 925 (val64 mag)
  (sign <<< 31) ||| res

/-- `__truncdfbf2` (lines 189–193): narrows the double to single precision
(`static_cast<float>`) and delegates to `__truncsfbf2`. -/
def truncdfbf2 (d : Nat) : Nat := truncsfbf2 (f64tof32 d)

/-! ## Classification of 16-bit patterns (for the statements) -/

/-- The 16-bit pattern `p` is an f16 NaN: exponent field all ones, nonzero
mantissa. -/
def isNaNF16 (p : Nat) : Bool :=
  ((p >>> 10) &&& 31 == 31) && (p &&& 1023 != 0)

/-- The 16-bit pattern `p` is a bf16 NaN: exponent field all ones, nonzero
mantissa. -/
def isNaNBF16 (p : Nat) : Bool :=
  ((p >>> 7) &&& 255 == 255) && (p &&& 127 != 0)

/-- Signed value of a binary32 pattern `u < 2 ^ 32` in units of `2 ^ (-149)`
(with the Infinity pattern mapped to the successor magnitude, consistently
ordered above every finite value). -/
def val32S (u : Nat) : Int :=
  if u < 2 ^ 31 then (val32 u : Int) else -(val32 (u % 2 ^ 31) : Int)

/-- Boolean form of the f16 round-trip equation, for exhaustive checking of
the subnormal patterns. -/
def roundtripsF16 (p : Nat) : Bool :=
  float2half (half2float p) == p

/-- Check `f` on the `2 ^ d` consecutive naturals starting at `start`, by
binary splitting (kept as a raw `Nat.rec` so that kernel evaluation is cheap). -/
def allRange (f : Nat → Bool) (d : Nat) : Nat → Bool :=
  Nat.rec f (fun d ih s => ih s && ih (s + (1 <<< d))) d

/-! ## Generic bit-manipulation lemmas -/

theorem allRange_spec {f : Nat → Bool} :
    ∀ d start, allRange f d start = true → ∀ i, i < 2 ^ d → f (start + i) = true := by
  intro d
  induction d with
  | zero =>
    intro start h i hi
    have hi0 : i = 0 := by omega
    subst hi0
    simpa using h
  | succ d ih =>
    intro start h i hi
    have h' : allRange f d start = true ∧ allRange f d (start + (1 <<< d)) = true := by
      have : (allRange f d start && allRange f d (start + (1 <<< d))) = true := h
      exact Bool.and_eq_true_iff.mp this
    by_cases hc : i < 2 ^ d
    · exact ih start h'.1 i hc
    · have hpow : (2 : Nat) ^ (d + 1) = 2 ^ d + 2 ^ d := by rw [Nat.pow_succ]; omega
      have h2 := ih (start + (1 <<< d)) h'.2 (i - 2 ^ d) (by omega)
      rw [Nat.one_shiftLeft] at h2
      have harg : start + 2 ^ d + (i - 2 ^ d) = start + i := by omega
      rwa [harg] at h2

/-- Masking with a contiguous bit field `(2 ^ a - 1) <<< b` extracts bits
`b, …, b + a - 1`. -/
theorem and_mask_shift (x a b : Nat) :
    x &&& ((2 ^ a - 1) <<< b) = ((x >>> b) % 2 ^ a) <<< b := by
  apply Nat.eq_of_testBit_eq
  intro j
  simp only [Nat.testBit_and, Nat.testBit_shiftLeft, Nat.testBit_two_pow_sub_one,
    Nat.testBit_mod_two_pow, Nat.testBit_shiftRight]
  by_cases hb : b ≤ j
  · have harg : b + (j - b) = j := by omega
    simp only [ge_iff_le, hb, decide_True, Bool.true_and, harg]
    by_cases hlt : j - b < a <;> simp [hlt, Bool.and_comm]
  · simp [ge_iff_le, hb]

/-- Adding a value below `2 ^ i` into the cleared low bits is a bitwise or. -/
theorem mul_pow_add_eq_or {b : Nat} (i s : Nat) (hb : b < 2 ^ i) :
    s * 2 ^ i + b = s * 2 ^ i ||| b := by
  rw [Nat.mul_comm s (2 ^ i)]
  exact Nat.mul_add_lt_is_or hb s

/-- Xoring away the high part recovers the low bits. -/
theorem mul_pow_add_xor {b : Nat} (i s : Nat) (hb : b < 2 ^ i) :
    (s * 2 ^ i + b) ^^^ s * 2 ^ i = b := by
  apply Nat.eq_of_testBit_eq
  intro j
  rw [Nat.mul_comm s (2 ^ i)]
  simp only [Nat.testBit_xor, Nat.testBit_mul_pow_two_add _ hb, Nat.testBit_mul_pow_two]
  by_cases hj : j < i
  · simp [hj, Nat.not_le_of_lt hj]
  · have hij : i ≤ j := by omega
    have hbj : b < 2 ^ j := lt_of_lt_of_le hb (Nat.pow_le_pow_right (by omega) hij)
    simp [hj, ge_iff_le, hij, Nat.testBit_lt_two_pow hbj]

/-! ## Facts about the bf16 codec -/

/-- `isNaNBF16` in arithmetic form: the 15 magnitude bits exceed the Infinity
magnitude `0x7F80`. -/
theorem isNaNBF16_iff (p : Nat) : isNaNBF16 p = true ↔ 0x7F80 < p % 2 ^ 15 := by
  have h255 : (255 : Nat) = 2 ^ 8 - 1 := by norm_num
  have h127 : (127 : Nat) = 2 ^ 7 - 1 := by norm_num
  rw [isNaNBF16, Bool.and_eq_true, beq_iff_eq, bne_iff_ne, h255, h127,
    Nat.and_pow_two_sub_one_eq_mod, Nat.and_pow_two_sub_one_eq_mod,
    Nat.shiftRight_eq_div_pow]
  omega

/-- **C2** (`spec.md` §8): for every 16-bit bf16 pattern `p` that is not a NaN
pattern, `float2bfloat (bfloat2float p) = p`; for NaN patterns the round-trip
preserves the sign bit and the NaN classification. -/
theorem bf16_roundtrip (p : Nat) (hp : p < 2 ^ 16) :
    (isNaNBF16 p = false → float2bfloat (bfloat2float p) = p) ∧
    (isNaNBF16 p = true → float2bfloat (bfloat2float p) >>> 15 = p >>> 15 ∧
      isNaNBF16 (float2bfloat (bfloat2float p)) = true) := by
  have hdec : bfloat2float p = p * 2 ^ 16 := by
    rw [bfloat2float, kF32BfMantiBitDiff, Nat.mod_eq_of_lt hp, Nat.shiftLeft_eq]
  rw [hdec]
  have e0 : p * 2 ^ 16 = 65536 * p := by ring
  constructor
  · intro hnn
    have hmag : ¬ 0x7F80 < p % 2 ^ 15 := by
      intro hc
      rw [(isNaNBF16_iff p).mpr hc] at hnn
      exact Bool.true_eq_false.mp hnn
    have hcond : isnan32 (p * 2 ^ 16) = false := by
      simp only [isnan32, kF32MantiBits, decide_eq_false_iff_not, Nat.shiftLeft_eq, e0]
      omega
    rw [float2bfloat, hcond, if_neg Bool.false_ne_true]
    simp only [kF32BfMantiBitDiff, Nat.shiftRight_eq_div_pow, Nat.and_one_is_mod]
    rw [Nat.mul_comm p (2 ^ 16), Nat.mul_div_cancel_left p (by norm_num : (0:Nat) < 2 ^ 16),
      Nat.mod_eq_of_lt (show 2 ^ 16 * p + (0x7fff + p % 2) < 2 ^ 32 by omega),
      Nat.mul_add_div (by norm_num), Nat.div_eq_of_lt (show 0x7fff + p % 2 < 2 ^ 16 by omega),
      Nat.add_zero, Nat.mod_eq_of_lt hp]
  · intro hnan
    have hmag : 0x7F80 < p % 2 ^ 15 := (isNaNBF16_iff p).mp hnan
    have hcond : isnan32 (p * 2 ^ 16) = true := by
      simp only [isnan32, kF32MantiBits, decide_eq_true_eq, Nat.shiftLeft_eq, e0]
      omega
    rw [float2bfloat, hcond, if_pos rfl]
    by_cases hs : 2 ^ 15 ≤ p
    · have hsb : signbit32 (p * 2 ^ 16) = true := by
        simp only [signbit32, decide_eq_true_eq, e0]
        omega
      rw [hsb, if_pos rfl]
      refine ⟨?_, by decide⟩
      have h2 : p >>> 15 = 1 := by rw [Nat.shiftRight_eq_div_pow]; omega
      rw [h2]
      decide
    · have hsb : signbit32 (p * 2 ^ 16) = false := by
        simp only [signbit32, decide_eq_false_iff_not, e0]
        omega
      rw [hsb, if_neg Bool.false_ne_true]
      refine ⟨?_, by decide⟩
      have h2 : p >>> 15 = 0 := by rw [Nat.shiftRight_eq_div_pow]; omega
      rw [h2]
      decide

/-- Witness for C2 at the non-NaN pattern `0x3F80` (bf16 `1.0`). -/
theorem bf16_roundtrip_witness :
    float2bfloat (bfloat2float 0x3F80) = 0x3F80 :=
  (bf16_roundtrip 0x3F80 (by decide)).1 (by decide)

/-- **C5** (`spec.md` §4.4): a NaN input is canonicalized by `float2bfloat` to
`0xFFC0` (negative sign) or `0x7FC0` (positive sign); the payload bits do not
influence the result. -/
theorem float2bfloat_nan_canonical (fu : Nat) (h : isnan32 fu = true) :
    float2bfloat fu = if signbit32 fu = true then 0xFFC0 else 0x7FC0 := by
  rw [float2bfloat, h, if_pos rfl]

/-- Witness for C5 at the negative NaN pattern `0xFFC00001`. -/
theorem float2bfloat_nan_canonical_witness :
    float2bfloat 0xFFC00001 = 0xFFC0 := by
  have h := float2bfloat_nan_canonical 0xFFC00001 (by decide)
  rw [h]
  decide

/-- **C10** (implicit in the code): every binary32 whose magnitude is at least
`0x7F7F8000` (the exact halfway point between the largest finite bf16 value
`0x7F7F` and `2 ^ 128`, which round-to-nearest-even sends up, i.e. the smallest
magnitude that rounds above the bf16 finite range) and at most the Infinity
pattern `255 <<< 23` is encoded by `float2bfloat` as the bf16 Infinity pattern
`0x7F80` carrying the input's sign bit: finite bf16 overflow saturates to
Infinity through the carry of the rounding-bias addition. -/
theorem float2bfloat_overflow (s mag : Nat) (hs : s ≤ 1)
    (hlo : 0x7F7F8000 ≤ mag) (hhi : mag ≤ 255 <<< 23) :
    float2bfloat (s * 2 ^ 31 + mag) = 0x7F80 + s * 0x8000 := by
  rw [show (255 <<< 23 : Nat) = 0x7F800000 from by decide] at hhi
  have hmod : (s * 2 ^ 31 + mag) % 2 ^ 31 = mag := by
    rw [Nat.mul_comm s (2 ^ 31), Nat.mul_add_mod, Nat.mod_eq_of_lt (by omega)]
  have hcond : isnan32 (s * 2 ^ 31 + mag) = false := by
    simp only [isnan32, kF32MantiBits, decide_eq_false_iff_not, hmod]
    rw [show (255 <<< 23 : Nat) = 0x7F800000 from by decide]
    omega
  rw [float2bfloat, hcond, if_neg Bool.false_ne_true]
  simp only [kF32BfMantiBitDiff, Nat.shiftRight_eq_div_pow, Nat.and_one_is_mod]
  have hlsb : (s * 2 ^ 31 + mag) / 2 ^ 16 % 2 = mag / 2 ^ 16 % 2 := by
    rw [show s * 2 ^ 31 + mag = 2 ^ 16 * (s * 2 ^ 15) + mag from by ring,
      Nat.mul_add_div (by norm_num)]
    omega
  rw [hlsb]
  by_cases hc : mag < 0x7F800000
  · have hdiv : mag / 2 ^ 16 = 0x7F7F := by omega
    rw [hdiv, show (0x7F7F : Nat) % 2 = 1 from by norm_num,
      Nat.mod_eq_of_lt (show s * 2 ^ 31 + mag + (0x7fff + 1) < 2 ^ 32 by omega),
      show s * 2 ^ 31 + mag + (0x7fff + 1) = 2 ^ 16 * (s * 2 ^ 15) + (mag + 0x8000) from by
        ring,
      Nat.mul_add_div (by norm_num), show (mag + 0x8000) / 2 ^ 16 = 0x7F80 from by omega,
      Nat.mod_eq_of_lt (show s * 2 ^ 15 + 0x7F80 < 2 ^ 16 by omega)]
    omega
  · have hmeq : mag = 0x7F800000 := by omega
    subst hmeq
    rw [show (0x7F800000 : Nat) / 2 ^ 16 % 2 = 0 from by norm_num,
      Nat.mod_eq_of_lt (show s * 2 ^ 31 + 0x7F800000 + (0x7fff + 0) < 2 ^ 32 by omega),
      show s * 2 ^ 31 + 0x7F800000 + (0x7fff + 0) =
        2 ^ 16 * (s * 2 ^ 15) + 0x7F807FFF from by ring,
      Nat.mul_add_div (by norm_num),
      show (0x7F807FFF : Nat) / 2 ^ 16 = 0x7F80 from by norm_num,
      Nat.mod_eq_of_lt (show s * 2 ^ 15 + 0x7F80 < 2 ^ 16 by omega)]
    omega

/-- Witness for C10 at negative Infinity: `float2bfloat 0xFF800000 = 0xFF80`. -/
theorem float2bfloat_overflow_witness :
    float2bfloat (1 * 2 ^ 31 + 0x7F800000) = 0x7F80 + 1 * 0x8000 :=
  float2bfloat_overflow 1 0x7F800000 (by decide) (by decide) (by decide)

/-! ## Facts about the f16 encoder on the Inf/NaN/overflow region -/

/-- `float2half` on inputs whose magnitude is at least the overflow threshold
`(127 + 16) <<< 23`: NaN inputs give the canonical quiet NaN `0x7e00`, Infinity
and finite-but-overflowing inputs give the canonical Infinity `0x7c00`, with
the sign bit carried into bit 15. -/
theorem float2half_high (s mag : Nat) (hs : s ≤ 1)
    (hlo : (127 + 16) <<< 23 ≤ mag) (hhi : mag < 2 ^ 31) :
    float2half (s * 2 ^ 31 + mag) =
      (if 255 <<< 23 < mag then 0x7e00 else 0x7c00) + s * 0x8000 := by
  have hsign : (s * 2 ^ 31 + mag) &&& 0x80000000 = s * 2 ^ 31 := by
    rw [show (0x80000000 : Nat) = (2 ^ 1 - 1) <<< 31 from by decide, and_mask_shift,
      Nat.shiftRight_eq_div_pow, Nat.shiftLeft_eq,
      show s * 2 ^ 31 + mag = 2 ^ 31 * s + mag from by ring,
      Nat.mul_add_div (by norm_num), Nat.div_eq_of_lt hhi, Nat.add_zero,
      Nat.mod_eq_of_lt (show s < 2 ^ 1 by omega)]
  have hxor : (s * 2 ^ 31 + mag) ^^^ s * 2 ^ 31 = mag := mul_pow_add_xor 31 s hhi
  simp only [float2half, kF32MantiBits, kF32HalfMantiBitDiff, kF32HalfBitDiff]
  rw [hsign, hxor, if_pos hlo]
  have hsr : ((s * 2 ^ 31) >>> 16) % 2 ^ 16 = s * 2 ^ 15 := by
    rw [Nat.shiftRight_eq_div_pow]
    interval_cases s <;> decide
  rw [hsr]
  by_cases hm : 255 <<< 23 < mag
  · rw [if_pos hm]
    interval_cases s <;> decide
  · rw [if_neg hm]
    interval_cases s <;> decide

/-- **C4** (`spec.md` §4.2 step 1, §7): for every binary32 input with sign bit
`s` and magnitude bits `mag` at least the f16 overflow threshold
`(127 + 16) <<< 23`: if the magnitude strictly exceeds the canonical binary32
Infinity pattern `255 <<< 23` (a NaN), `float2half` returns the canonical quiet
NaN `0x7e00` with the sign in bit 15; otherwise (Infinity, or finite overflow,
which silently saturates) it returns the canonical Infinity `0x7c00` with the
sign in bit 15. -/
theorem float2half_overflow (s mag : Nat) (hs : s ≤ 1)
    (hlo : (127 + 16) <<< 23 ≤ mag) (hhi : mag < 2 ^ 31) :
    float2half (s * 2 ^ 31 + mag) =
      (if 255 <<< 23 < mag then 0x7e00 else 0x7c00) + s * 0x8000 :=
  float2half_high s mag hs hlo hhi

/-- Witness for C4 at positive Infinity: `float2half 0x7F800000 = 0x7c00`. -/
theorem float2half_overflow_witness :
    float2half (0 * 2 ^ 31 + 0x7F800000) =
      (if 255 <<< 23 < 0x7F800000 then 0x7e00 else 0x7c00) + 0 * 0x8000 :=
  float2half_overflow 0 0x7F800000 (by decide) (by decide) (by decide)

/-! ## Concrete conversions -/

/-- **C3, counterexample**: `0x477FF000` is the binary32 pattern of `65520.0f`
(65520 is not "just under the f16 maximum": the largest finite f16 value is
65504, and 65520 lies exactly halfway between 65504 and 65536).  `float2half`
maps it to `0x7C00`, whose f16 exponent field (bits 10–14) is all ones: the
Infinity pattern, not a finite pattern in the `0x7BFF` range. -/
theorem f16_encode_65520_not_finite :
    float2half 0x477FF000 = 0x7C00 ∧ (float2half 0x477FF000 >>> 10) &&& 31 = 31 := by
  decide

/-- **C3, amended** (`spec.md` §8): encoding `65504.0f` (= `0x477FE000`, the
largest finite f16 value) yields `0x7BFF`; encoding `65520.0f` (= `0x477FF000`,
exactly halfway between 65504 and 65536, sent up by ties-to-even) and
`70000.0f` (= `0x4788B800`) both yield `0x7C00` (Infinity, overflow
saturation). -/
theorem f16_encode_near_max :
    float2half 0x477FE000 = 0x7BFF ∧ float2half 0x477FF000 = 0x7C00 ∧
    float2half 0x4788B800 = 0x7C00 := by
  decide

/-- **C9** (`spec.md` §8): concrete conversions.  `float2half 0.0f = 0x0000`,
`float2half (-0.0f) = 0x8000` (signed zero preserved), `float2half 1.0f =
0x3C00`, and `half2float 0x3C00` is exactly the binary32 pattern of `1.0f`. -/
theorem f16_concrete_cases :
    float2half 0x00000000 = 0x0000 ∧ float2half 0x80000000 = 0x8000 ∧
    float2half 0x3F800000 = 0x3C00 ∧ half2float 0x3C00 = 0x3F800000 := by
  decide

/-- **C7** (`spec.md` §4.7): `__truncdfbf2` returns, for every binary64
pattern `d`, exactly `__truncsfbf2` applied to the binary32 narrowing of `d`
(the code delegates after a `static_cast<float>`, accepting the double
rounding) — including at binary32 rounding boundaries: `0x3FF0000010000000` is
`1 + 2 ^ (-24)`, exactly halfway between two binary32 neighbors; it narrows to
`1.0f` (ties-to-even) and both paths produce bf16 `0x3F80`. -/
theorem truncdfbf2_delegates :
    (∀ d, truncdfbf2 d = truncsfbf2 (f64tof32 d)) ∧
    truncdfbf2 0x3FF0000010000000 = 0x3F80 ∧
    truncsfbf2 (f64tof32 0x3FF0000010000000) = 0x3F80 := by
  refine ⟨fun d => rfl, ?_, ?_⟩ <;> decide

/-! ## The f16 round trip -/

/-- `uint32` wraparound of a sum that overflows exactly once. -/
theorem mod32_of_ge (a : Nat) (h1 : 2 ^ 32 ≤ a) (h2 : a < 2 ^ 33) :
    a % 2 ^ 32 = a - 2 ^ 32 := by
  omega

/-- `isNaNF16` in arithmetic form. -/
theorem isNaNF16_iff (p : Nat) :
    isNaNF16 p = true ↔ p / 2 ^ 10 % 2 ^ 5 = 2 ^ 5 - 1 ∧ p % 2 ^ 10 ≠ 0 := by
  have h31 : (31 : Nat) = 2 ^ 5 - 1 := by norm_num
  have h1023 : (1023 : Nat) = 2 ^ 10 - 1 := by norm_num
  rw [isNaNF16, Bool.and_eq_true, beq_iff_eq, bne_iff_ne, h31, h1023,
    Nat.and_pow_two_sub_one_eq_mod, Nat.and_pow_two_sub_one_eq_mod,
    Nat.shiftRight_eq_div_pow]

/-- `isNaNF16` is false iff the arithmetic NaN condition fails. -/
theorem isNaNF16_eq_false_iff (p : Nat) :
    isNaNF16 p = false ↔ ¬(p / 2 ^ 10 % 2 ^ 5 = 2 ^ 5 - 1 ∧ p % 2 ^ 10 ≠ 0) := by
  rw [← isNaNF16_iff]
  cases isNaNF16 p <;> simp

/-- `half2float` on a pattern with normal f16 exponent `1 ≤ E ≤ 30`: the
exponent is rebiased by `+112` and the mantissa shifted up by 13 bits. -/
theorem half2float_normal (s E M : Nat) (hs : s ≤ 1) (hE1 : 1 ≤ E) (hE2 : E ≤ 30)
    (hM : M < 2 ^ 10) :
    half2float (s * 2 ^ 15 + E * 2 ^ 10 + M) = s * 2 ^ 31 + ((E + 112) * 2 ^ 23 + M * 2 ^ 13) := by
  have hand : (s * 2 ^ 15 + E * 2 ^ 10 + M) &&& 0x7fff = E * 2 ^ 10 + M := by
    rw [show (0x7fff : Nat) = 2 ^ 15 - 1 from by norm_num, Nat.and_pow_two_sub_one_eq_mod,
      show s * 2 ^ 15 + E * 2 ^ 10 + M = 2 ^ 15 * s + (E * 2 ^ 10 + M) from by ring,
      Nat.mul_add_mod]
    exact Nat.mod_eq_of_lt (by omega)
  have hdivp : (s * 2 ^ 15 + E * 2 ^ 10 + M) / 2 ^ 15 = s := by
    rw [show s * 2 ^ 15 + E * 2 ^ 10 + M = 2 ^ 15 * s + (E * 2 ^ 10 + M) from by ring,
      Nat.mul_add_div (by norm_num), Nat.div_eq_of_lt (by omega), Nat.add_zero]
  have hsgn : ((s * 2 ^ 15 + E * 2 ^ 10 + M &&& 0x8000) <<< 16) % 2 ^ 32 = s * 2 ^ 31 := by
    rw [show (0x8000 : Nat) = (2 ^ 1 - 1) <<< 15 from by decide, and_mask_shift,
      Nat.shiftRight_eq_div_pow, hdivp, Nat.mod_eq_of_lt (show s < 2 ^ 1 by omega),
      Nat.shiftLeft_eq, Nat.shiftLeft_eq,
      show s * 2 ^ 15 * 2 ^ 16 = s * 2 ^ 31 from by ring]
    exact Nat.mod_eq_of_lt (by omega)
  have hexp : 0x7c00 <<< 13 &&& (E * 2 ^ 10 + M) * 2 ^ 13 = E * 2 ^ 23 := by
    rw [show (0x7c00 <<< 13 : Nat) = (2 ^ 5 - 1) <<< 23 from by decide, Nat.and_comm,
      and_mask_shift, Nat.shiftRight_eq_div_pow, Nat.shiftLeft_eq,
      show (E * 2 ^ 10 + M) * 2 ^ 13 = 2 ^ 23 * E + M * 2 ^ 13 from by ring,
      Nat.mul_add_div (by norm_num), Nat.div_eq_of_lt (by omega)]
    omega
  simp only [half2float, kF32HalfMantiBitDiff, kF32HalfBitDiff]
  rw [hand, hsgn,
    show ((E * 2 ^ 10 + M) <<< 13) % 2 ^ 32 = (E * 2 ^ 10 + M) * 2 ^ 13 from by
      rw [Nat.shiftLeft_eq]; exact Nat.mod_eq_of_lt (by omega),
    hexp,
    if_neg (show ¬E * 2 ^ 23 = 0x7c00 <<< 13 from by
      rw [show (0x7c00 <<< 13 : Nat) = 31 * 2 ^ 23 from by decide]; omega),
    if_neg (show ¬E * 2 ^ 23 = 0 from by omega),
    show kF32HalfExpAdjust = 112 * 2 ^ 23 from by decide,
    Nat.mod_eq_of_lt (show (E * 2 ^ 10 + M) * 2 ^ 13 + 112 * 2 ^ 23 < 2 ^ 32 by omega),
    Nat.or_comm, ← mul_pow_add_eq_or 31 s
      (show (E * 2 ^ 10 + M) * 2 ^ 13 + 112 * 2 ^ 23 < 2 ^ 31 by omega)]
  omega

/-- `half2float` on a pattern with exponent field 31 (Inf/NaN): the exponent
rebias is applied twice, producing the binary32 exponent field 255. -/
theorem half2float_topexp (s M : Nat) (hs : s ≤ 1) (hM : M < 2 ^ 10) :
    half2float (s * 2 ^ 15 + 31 * 2 ^ 10 + M) = s * 2 ^ 31 + (255 * 2 ^ 23 + M * 2 ^ 13) := by
  have hand : (s * 2 ^ 15 + 31 * 2 ^ 10 + M) &&& 0x7fff = 31 * 2 ^ 10 + M := by
    rw [show (0x7fff : Nat) = 2 ^ 15 - 1 from by norm_num, Nat.and_pow_two_sub_one_eq_mod,
      show s * 2 ^ 15 + 31 * 2 ^ 10 + M = 2 ^ 15 * s + (31 * 2 ^ 10 + M) from by ring,
      Nat.mul_add_mod]
    exact Nat.mod_eq_of_lt (by omega)
  have hdivp : (s * 2 ^ 15 + 31 * 2 ^ 10 + M) / 2 ^ 15 = s := by
    rw [show s * 2 ^ 15 + 31 * 2 ^ 10 + M = 2 ^ 15 * s + (31 * 2 ^ 10 + M) from by ring,
      Nat.mul_add_div (by norm_num), Nat.div_eq_of_lt (by omega), Nat.add_zero]
  have hsgn : ((s * 2 ^ 15 + 31 * 2 ^ 10 + M &&& 0x8000) <<< 16) % 2 ^ 32 = s * 2 ^ 31 := by
    rw [show (0x8000 : Nat) = (2 ^ 1 - 1) <<< 15 from by decide, and_mask_shift,
      Nat.shiftRight_eq_div_pow, hdivp, Nat.mod_eq_of_lt (show s < 2 ^ 1 by omega),
      Nat.shiftLeft_eq, Nat.shiftLeft_eq,
      show s * 2 ^ 15 * 2 ^ 16 = s * 2 ^ 31 from by ring]
    exact Nat.mod_eq_of_lt (by omega)
  have hexp : 0x7c00 <<< 13 &&& (31 * 2 ^ 10 + M) * 2 ^ 13 = 31 * 2 ^ 23 := by
    rw [show (0x7c00 <<< 13 : Nat) = (2 ^ 5 - 1) <<< 23 from by decide, Nat.and_comm,
      and_mask_shift, Nat.shiftRight_eq_div_pow, Nat.shiftLeft_eq,
      show (31 * 2 ^ 10 + M) * 2 ^ 13 = 2 ^ 23 * 31 + M * 2 ^ 13 from by ring,
      Nat.mul_add_div (by norm_num), Nat.div_eq_of_lt (by omega)]
    omega
  simp only [half2float, kF32HalfMantiBitDiff, kF32HalfBitDiff]
  rw [hand, hsgn,
    show ((31 * 2 ^ 10 + M) <<< 13) % 2 ^ 32 = (31 * 2 ^ 10 + M) * 2 ^ 13 from by
      rw [Nat.shiftLeft_eq]; exact Nat.mod_eq_of_lt (by omega),
    hexp,
    if_pos (show (31 : Nat) * 2 ^ 23 = 0x7c00 <<< 13 from by decide),
    show kF32HalfExpAdjust = 112 * 2 ^ 23 from by decide,
    Nat.mod_eq_of_lt (show (31 * 2 ^ 10 + M) * 2 ^ 13 + 112 * 2 ^ 23 < 2 ^ 32 by omega),
    Nat.mod_eq_of_lt
      (show (31 * 2 ^ 10 + M) * 2 ^ 13 + 112 * 2 ^ 23 + 112 * 2 ^ 23 < 2 ^ 32 by omega),
    Nat.or_comm, ← mul_pow_add_eq_or 31 s
      (show (31 * 2 ^ 10 + M) * 2 ^ 13 + 112 * 2 ^ 23 + 112 * 2 ^ 23 < 2 ^ 31 by omega)]
  omega

/-- The mask-and-xor preamble of `float2half`: the sign bit of
`s * 2 ^ 31 + mag`. -/
theorem float2half_sign (s mag : Nat) (hs : s ≤ 1) (hmag : mag < 2 ^ 31) :
    (s * 2 ^ 31 + mag) &&& 0x80000000 = s * 2 ^ 31 := by
  rw [show (0x80000000 : Nat) = (2 ^ 1 - 1) <<< 31 from by decide, and_mask_shift,
    Nat.shiftRight_eq_div_pow, Nat.shiftLeft_eq,
    show s * 2 ^ 31 + mag = 2 ^ 31 * s + mag from by ring,
    Nat.mul_add_div (by norm_num), Nat.div_eq_of_lt hmag, Nat.add_zero,
    Nat.mod_eq_of_lt (show s < 2 ^ 1 by omega)]

/-- `float2half` on a magnitude in the normal f16 range
`[113 · 2 ^ 23, 143 · 2 ^ 23)`: exponent rebias by `-112`, mantissa shift by
13 bits with round-to-nearest (ties to even via the `mantOdd` correction). -/
theorem float2half_normal (s e M : Nat) (hs : s ≤ 1) (he1 : 113 ≤ e) (he2 : e ≤ 142)
    (hM : M < 2 ^ 10) :
    float2half (s * 2 ^ 31 + (e * 2 ^ 23 + M * 2 ^ 13)) =
      s * 2 ^ 15 + ((e - 112) * 2 ^ 10 + M) := by
  have hmag : e * 2 ^ 23 + M * 2 ^ 13 < 2 ^ 31 := by omega
  simp only [float2half, kF32MantiBits, kF32HalfMantiBitDiff, kF32HalfBitDiff]
  rw [float2half_sign s _ hs hmag, mul_pow_add_xor 31 s hmag,
    if_neg (show ¬(127 + 16) <<< 23 ≤ e * 2 ^ 23 + M * 2 ^ 13 from by
      rw [show ((127 + 16) <<< 23 : Nat) = 143 * 2 ^ 23 from by decide]; omega),
    if_neg (show ¬e * 2 ^ 23 + M * 2 ^ 13 < kF32MagicU from by
      rw [show kF32MagicU = 113 * 2 ^ 23 from by decide]; omega),
    show (e * 2 ^ 23 + M * 2 ^ 13) >>> 13 &&& 1 = M % 2 from by
      rw [Nat.and_one_is_mod, Nat.shiftRight_eq_div_pow,
        show e * 2 ^ 23 + M * 2 ^ 13 = 2 ^ 13 * (e * 2 ^ 10 + M) from by ring,
        Nat.mul_div_cancel_left _ (by norm_num)]
      omega,
    mod32_of_ge (e * 2 ^ 23 + M * 2 ^ 13 + 0xc8000fff) (by omega) (by omega),
    Nat.mod_eq_of_lt
      (show e * 2 ^ 23 + M * 2 ^ 13 + 0xc8000fff - 2 ^ 32 + M % 2 < 2 ^ 32 by omega)]
  simp only [Nat.shiftRight_eq_div_pow]
  rw [Nat.mod_eq_of_lt
      (show (e * 2 ^ 23 + M * 2 ^ 13 + 0xc8000fff - 2 ^ 32 + M % 2) / 2 ^ 13 < 2 ^ 16 from by
        rw [Nat.div_lt_iff_lt_mul (by norm_num)]; omega),
    show s * 2 ^ 31 / 2 ^ 16 % 2 ^ 16 = s * 2 ^ 15 from by
      rw [show s * 2 ^ 31 = 2 ^ 16 * (s * 2 ^ 15) from by ring,
        Nat.mul_div_cancel_left _ (by norm_num)]
      exact Nat.mod_eq_of_lt (by omega),
    Nat.or_comm, ← mul_pow_add_eq_or 15 s
      (show (e * 2 ^ 23 + M * 2 ^ 13 + 0xc8000fff - 2 ^ 32 + M % 2) / 2 ^ 13 < 2 ^ 15 from by
        rw [Nat.div_lt_iff_lt_mul (by norm_num)]; omega),
    show e * 2 ^ 23 + M * 2 ^ 13 + 0xc8000fff - 2 ^ 32 + M % 2
        = 2 ^ 13 * ((e - 112) * 2 ^ 10 + M) + (0xfff + M % 2) from by omega,
    Nat.mul_add_div (by norm_num),
    Nat.div_eq_of_lt (show 0xfff + M % 2 < 2 ^ 13 by omega)]
  omega

/-- Exhaustive check of the round trip on the positive subnormal patterns. -/
theorem f16_subnormal_pos_check : allRange roundtripsF16 10 0 = true := by rfl

/-- Exhaustive check of the round trip on the negative subnormal patterns. -/
theorem f16_subnormal_neg_check : allRange roundtripsF16 10 0x8000 = true := by rfl

/-- **C1** (`spec.md` §8): for every 16-bit pattern `p` encoding an f16
normal, subnormal, zero, or Infinity (i.e. not a NaN),
`float2half (half2float p) = p`; for f16 NaN patterns the round trip preserves
the sign bit and the NaN classification (the payload is canonicalized). -/
theorem f16_roundtrip (p : Nat) (hp : p < 2 ^ 16) :
    (isNaNF16 p = false → float2half (half2float p) = p) ∧
    (isNaNF16 p = true → float2half (half2float p) >>> 15 = p >>> 15 ∧
      isNaNF16 (float2half (half2float p)) = true) := by
  have hdecomp : p = p / 2 ^ 15 * 2 ^ 15 + p % 2 ^ 15 / 2 ^ 10 * 2 ^ 10 + p % 2 ^ 10 := by
    omega
  set s := p / 2 ^ 15 with hs_def
  set E := p % 2 ^ 15 / 2 ^ 10 with hE_def
  set M := p % 2 ^ 10 with hM_def
  have hs : s ≤ 1 := by omega
  have hE : E < 2 ^ 5 := by omega
  have hM : M < 2 ^ 10 := by omega
  by_cases hE31 : E = 31
  · -- exponent field all ones: Infinity (M = 0) or NaN (M ≠ 0)
    by_cases hM0 : M = 0
    · -- Infinity: the round trip is exact
      have hnn : isNaNF16 p = false := by
        rw [isNaNF16_eq_false_iff]
        intro h
        exact h.2 (by omega)
      refine ⟨fun _ => ?_, fun hc => by rw [hnn] at hc; exact absurd hc (by simp)⟩
      rw [hdecomp, hE31, hM0]
      rw [half2float_topexp s 0 hs (by omega)]
      have := float2half_high s (255 * 2 ^ 23 + 0 * 2 ^ 13) hs
        (by rw [show ((127 + 16) <<< 23 : Nat) = 143 * 2 ^ 23 from by decide]; omega)
        (by omega)
      rw [show (255 : Nat) * 2 ^ 23 + 0 * 2 ^ 13 = 255 * 2 ^ 23 from by ring] at this ⊢
      rw [this, if_neg (show ¬(255 <<< 23 : Nat) < 255 * 2 ^ 23 from by
        rw [show ((255 <<< 23 : Nat)) = 255 * 2 ^ 23 from by decide]; omega)]
      omega
    · -- NaN: sign and NaN-ness are preserved
      have hnan : isNaNF16 p = true := by
        rw [isNaNF16_iff]
        constructor
        · omega
        · omega
      refine ⟨fun hc => by rw [hnan] at hc; exact absurd hc (by simp), fun _ => ?_⟩
      rw [hdecomp, hE31]
      rw [half2float_topexp s M hs hM]
      have hmain := float2half_high s (255 * 2 ^ 23 + M * 2 ^ 13) hs
        (by rw [show ((127 + 16) <<< 23 : Nat) = 143 * 2 ^ 23 from by decide]; omega)
        (by omega)
      rw [hmain, if_pos (show (255 <<< 23 : Nat) < 255 * 2 ^ 23 + M * 2 ^ 13 from by
        rw [show ((255 <<< 23 : Nat)) = 255 * 2 ^ 23 from by decide]; omega)]
      constructor
      · simp only [Nat.shiftRight_eq_div_pow]
        omega
      · rw [isNaNF16_iff]
        constructor
        · omega
        · omega
  · by_cases hE0 : E = 0
    · -- subnormal or zero: covered by the exhaustive checks
      have hcheck : roundtripsF16 p = true := by
        rcases (show s = 0 ∨ s = 1 from by omega) with hs0 | hs1
        · have h := allRange_spec 10 0 f16_subnormal_pos_check M hM
          rw [Nat.zero_add] at h
          rwa [show p = M from by omega]
        · have h := allRange_spec 10 0x8000 f16_subnormal_neg_check M hM
          rwa [show p = 0x8000 + M from by omega]
      have hnn : isNaNF16 p = false := by
        rw [isNaNF16_eq_false_iff]
        intro h
        omega
      refine ⟨fun _ => ?_, fun hc => by rw [hnn] at hc; exact absurd hc (by simp)⟩
      have := hcheck
      rw [roundtripsF16] at this
      exact eq_of_beq this
    · -- normal f16 exponent 1 ≤ E ≤ 30
      have hnn : isNaNF16 p = false := by
        rw [isNaNF16_eq_false_iff]
        intro h
        omega
      refine ⟨fun _ => ?_, fun hc => by rw [hnn] at hc; exact absurd hc (by simp)⟩
      rw [hdecomp]
      rw [half2float_normal s E M hs (by omega) (by omega) hM]
      have hmain := float2half_normal s (E + 112) M hs (by omega) (by omega) hM
      rw [hmain]
      omega

/-- Witness for C1 at `0x3C00` (f16 `1.0`, not a NaN). -/
theorem f16_roundtrip_witness :
    float2half (half2float 0x3C00) = 0x3C00 :=
  (f16_roundtrip 0x3C00 (by decide)).1 (by decide)

/-- `float2half` on the full normal f16 range, keeping the `L < 2 ^ 13` bits
below the retained mantissa: the result adds the round-to-nearest increment
`(L + 0xfff + M % 2) / 2 ^ 13`, which is `0` below the halfway point `L =
2 ^ 12`, `1` above it, and `M % 2` exactly at it (ties to even); a mantissa
carry propagates into the exponent (and, at the very top, into the Infinity
pattern) by plain addition. -/
theorem float2half_normal_general (s e M L : Nat) (hs : s ≤ 1) (he1 : 113 ≤ e)
    (he2 : e ≤ 142) (hM : M < 2 ^ 10) (hL : L < 2 ^ 13) :
    float2half (s * 2 ^ 31 + (e * 2 ^ 23 + M * 2 ^ 13 + L)) =
      s * 2 ^ 15 + ((e - 112) * 2 ^ 10 + M + (L + 0xfff + M % 2) / 2 ^ 13) := by
  have hmag : e * 2 ^ 23 + M * 2 ^ 13 + L < 2 ^ 31 := by omega
  simp only [float2half, kF32MantiBits, kF32HalfMantiBitDiff, kF32HalfBitDiff]
  rw [float2half_sign s _ hs hmag, mul_pow_add_xor 31 s hmag,
    if_neg (show ¬(127 + 16) <<< 23 ≤ e * 2 ^ 23 + M * 2 ^ 13 + L from by
      rw [show ((127 + 16) <<< 23 : Nat) = 143 * 2 ^ 23 from by decide]; omega),
    if_neg (show ¬e * 2 ^ 23 + M * 2 ^ 13 + L < kF32MagicU from by
      rw [show kF32MagicU = 113 * 2 ^ 23 from by decide]; omega),
    show (e * 2 ^ 23 + M * 2 ^ 13 + L) >>> 13 &&& 1 = M % 2 from by
      rw [Nat.and_one_is_mod, Nat.shiftRight_eq_div_pow,
        show e * 2 ^ 23 + M * 2 ^ 13 + L = 2 ^ 13 * (e * 2 ^ 10 + M) + L from by ring,
        Nat.mul_add_div (by norm_num), Nat.div_eq_of_lt hL]
      omega,
    mod32_of_ge (e * 2 ^ 23 + M * 2 ^ 13 + L + 0xc8000fff) (by omega) (by omega),
    Nat.mod_eq_of_lt
      (show e * 2 ^ 23 + M * 2 ^ 13 + L + 0xc8000fff - 2 ^ 32 + M % 2 < 2 ^ 32 by omega)]
  simp only [Nat.shiftRight_eq_div_pow]
  rw [Nat.mod_eq_of_lt
      (show (e * 2 ^ 23 + M * 2 ^ 13 + L + 0xc8000fff - 2 ^ 32 + M % 2) / 2 ^ 13 < 2 ^ 16
        from by rw [Nat.div_lt_iff_lt_mul (by norm_num)]; omega),
    show s * 2 ^ 31 / 2 ^ 16 % 2 ^ 16 = s * 2 ^ 15 from by
      rw [show s * 2 ^ 31 = 2 ^ 16 * (s * 2 ^ 15) from by ring,
        Nat.mul_div_cancel_left _ (by norm_num)]
      exact Nat.mod_eq_of_lt (by omega),
    Nat.or_comm, ← mul_pow_add_eq_or 15 s
      (show (e * 2 ^ 23 + M * 2 ^ 13 + L + 0xc8000fff - 2 ^ 32 + M % 2) / 2 ^ 13 < 2 ^ 15
        from by rw [Nat.div_lt_iff_lt_mul (by norm_num)]; omega),
    show e * 2 ^ 23 + M * 2 ^ 13 + L + 0xc8000fff - 2 ^ 32 + M % 2
        = 2 ^ 13 * ((e - 112) * 2 ^ 10 + M) + (L + 0xfff + M % 2) from by omega,
    Nat.mul_add_div (by norm_num)]

/-- **C6** (`spec.md` §8, tie-to-even): a binary32 value exactly halfway
between two adjacent representable values of the target format rounds to the
neighbor whose retained mantissa is even.
For f16 the halfway points of the normal range are the patterns
`s·2^31 + e·2^23 + M·2^13 + 2^12` (`113 ≤ e ≤ 142`): the encoder returns the
truncated mantissa `M` when `M` is even and `M + 1` when `M` is odd.
For bf16 every halfway point below the overflow threshold is
`s·2^31 + q·2^16 + 2^15` (`q < 0x7F80`): the encoder returns `q` when `q` is
even and `q + 1` when `q` is odd.
The last four conjuncts instantiate this at one explicit pattern per format
and direction: `0x3F801000` (= `1 + 2^(-11)`, between f16 `0x3C00` even and
`0x3C01`) rounds down, `0x3F803000` (between `0x3C01` odd and `0x3C02` even)
rounds up, and similarly `0x3F808000` / `0x3F818000` for bf16. -/
theorem tie_to_even :
    (∀ s e M, s ≤ 1 → 113 ≤ e → e ≤ 142 → M < 2 ^ 10 →
      float2half (s * 2 ^ 31 + (e * 2 ^ 23 + M * 2 ^ 13 + 2 ^ 12)) =
        s * 2 ^ 15 + ((e - 112) * 2 ^ 10 + M + M % 2)) ∧
    (∀ s q, s ≤ 1 → q < 0x7F80 →
      float2bfloat (s * 2 ^ 31 + (q * 2 ^ 16 + 2 ^ 15)) = s * 2 ^ 15 + (q + q % 2)) ∧
    float2half 0x3F801000 = 0x3C00 ∧ float2half 0x3F803000 = 0x3C02 ∧
    float2bfloat 0x3F808000 = 0x3F80 ∧ float2bfloat 0x3F818000 = 0x3F82 := by
  refine ⟨?_, ?_, by decide, by decide, by decide, by decide⟩
  · intro s e M hs he1 he2 hM
    rw [float2half_normal_general s e M (2 ^ 12) hs he1 he2 hM (by norm_num)]
    rcases Nat.mod_two_eq_zero_or_one M with hm | hm <;> rw [hm] <;> norm_num
  · intro s q hs hq
    have hmod : (s * 2 ^ 31 + (q * 2 ^ 16 + 2 ^ 15)) % 2 ^ 31 = q * 2 ^ 16 + 2 ^ 15 := by
      rw [Nat.mul_comm s (2 ^ 31), Nat.mul_add_mod, Nat.mod_eq_of_lt (by omega)]
    have hcond : isnan32 (s * 2 ^ 31 + (q * 2 ^ 16 + 2 ^ 15)) = false := by
      simp only [isnan32, kF32MantiBits, decide_eq_false_iff_not, hmod]
      rw [show (255 <<< 23 : Nat) = 0x7F800000 from by decide]
      omega
    rw [float2bfloat, hcond, if_neg Bool.false_ne_true]
    simp only [kF32BfMantiBitDiff, Nat.shiftRight_eq_div_pow, Nat.and_one_is_mod]
    have hlsb : (s * 2 ^ 31 + (q * 2 ^ 16 + 2 ^ 15)) / 2 ^ 16 % 2 = q % 2 := by
      rw [show s * 2 ^ 31 + (q * 2 ^ 16 + 2 ^ 15) = 2 ^ 16 * (s * 2 ^ 15 + q) + 2 ^ 15
          from by ring,
        Nat.mul_add_div (by norm_num), Nat.div_eq_of_lt (by norm_num)]
      omega
    rw [hlsb]
    rcases Nat.mod_two_eq_zero_or_one q with hq2 | hq2 <;> rw [hq2]
    · rw [Nat.mod_eq_of_lt
          (show s * 2 ^ 31 + (q * 2 ^ 16 + 2 ^ 15) + (0x7fff + 0) < 2 ^ 32 by omega),
        show s * 2 ^ 31 + (q * 2 ^ 16 + 2 ^ 15) + (0x7fff + 0)
            = 2 ^ 16 * (s * 2 ^ 15 + q) + 0xFFFF from by ring,
        Nat.mul_add_div (by norm_num), Nat.div_eq_of_lt (by norm_num),
        Nat.add_zero, Nat.mod_eq_of_lt (by omega)]
      omega
    · rw [Nat.mod_eq_of_lt
          (show s * 2 ^ 31 + (q * 2 ^ 16 + 2 ^ 15) + (0x7fff + 1) < 2 ^ 32 by omega),
        show s * 2 ^ 31 + (q * 2 ^ 16 + 2 ^ 15) + (0x7fff + 1)
            = 2 ^ 16 * (s * 2 ^ 15 + q + 1) + 0 from by ring,
        Nat.mul_add_div (by norm_num), Nat.zero_div, Nat.add_zero,
        Nat.mod_eq_of_lt (by omega)]
      omega

/-- Witness for C6: tie at `M = 0` (even, rounds down) for f16 with `e = 127`,
and tie at `q = 0x3F80` (even, rounds down) for bf16. -/
theorem tie_to_even_witness :
    float2half (0 * 2 ^ 31 + (127 * 2 ^ 23 + 0 * 2 ^ 13 + 2 ^ 12)) =
      0 * 2 ^ 15 + ((127 - 112) * 2 ^ 10 + 0 + 0 % 2) ∧
    float2bfloat (0 * 2 ^ 31 + (0x3F80 * 2 ^ 16 + 2 ^ 15)) =
      0 * 2 ^ 15 + (0x3F80 + 0x3F80 % 2) :=
  ⟨tie_to_even.1 0 127 0 (by decide) (by decide) (by decide) (by decide),
   tie_to_even.2.1 0 0x3F80 (by decide) (by decide)⟩

/-! ## Injectivity and order preservation of the bf16 decoder -/

/-- `val32` in pure div/mod arithmetic. -/
theorem val32_eq (u : Nat) :
    val32 u = if u / 2 ^ 23 = 0 then u % 2 ^ 23
      else (2 ^ 23 + u % 2 ^ 23) * 2 ^ (u / 2 ^ 23 - 1) := by
  simp only [val32, Nat.shiftRight_eq_div_pow, Nat.and_pow_two_sub_one_eq_mod,
    Nat.shiftLeft_eq]

/-- `val32` is strictly monotone on magnitude patterns (in particular on all
patterns up to the Infinity pattern `255 * 2 ^ 23`, which is all the order
claim needs). -/
theorem val32_strictMono (u v : Nat) (huv : u < v) : val32 u < val32 v := by
  rw [val32_eq, val32_eq]
  have hEuv : u / 2 ^ 23 ≤ v / 2 ^ 23 := Nat.div_le_div_right (le_of_lt huv)
  by_cases hu0 : u / 2 ^ 23 = 0
  · by_cases hv0 : v / 2 ^ 23 = 0
    · rw [if_pos hu0, if_pos hv0]
      omega
    · rw [if_pos hu0, if_neg hv0]
      calc u % 2 ^ 23 < 2 ^ 23 := Nat.mod_lt u (by norm_num)
        _ ≤ (2 ^ 23 + v % 2 ^ 23) * 2 ^ (v / 2 ^ 23 - 1) := by
            calc (2 : Nat) ^ 23 = 2 ^ 23 * 1 := by ring
              _ ≤ (2 ^ 23 + v % 2 ^ 23) * 2 ^ (v / 2 ^ 23 - 1) :=
                Nat.mul_le_mul (by omega) (Nat.one_le_two_pow)
  · have hv0 : v / 2 ^ 23 ≠ 0 := by omega
    rw [if_neg hu0, if_neg hv0]
    by_cases heq : u / 2 ^ 23 = v / 2 ^ 23
    · rw [heq]
      refine Nat.mul_lt_mul_of_lt_of_le (by omega) (le_refl _) (Nat.pos_pow_of_pos _ (by norm_num))
    · have hlt : u / 2 ^ 23 < v / 2 ^ 23 := by omega
      calc (2 ^ 23 + u % 2 ^ 23) * 2 ^ (u / 2 ^ 23 - 1)
          < 2 ^ 24 * 2 ^ (u / 2 ^ 23 - 1) :=
            Nat.mul_lt_mul_of_lt_of_le (by omega) (le_refl _) (Nat.pos_pow_of_pos _ (by norm_num))
        _ = 2 ^ (24 + (u / 2 ^ 23 - 1)) := by rw [Nat.pow_add]
        _ ≤ 2 ^ (23 + (v / 2 ^ 23 - 1)) := Nat.pow_le_pow_right (by norm_num) (by omega)
        _ = 2 ^ 23 * 2 ^ (v / 2 ^ 23 - 1) := by rw [Nat.pow_add]
        _ ≤ (2 ^ 23 + v % 2 ^ 23) * 2 ^ (v / 2 ^ 23 - 1) :=
            Nat.mul_le_mul_right _ (by omega)

/-- `isNaNBF16` is false iff the 15 magnitude bits do not exceed `0x7F80`. -/
theorem isNaNBF16_eq_false_iff (p : Nat) :
    isNaNBF16 p = false ↔ ¬0x7F80 < p % 2 ^ 15 := by
  rw [← isNaNBF16_iff]
  cases isNaNBF16 p <;> simp

/-- **C8** (`spec.md` §8): `bfloat2float` is injective on 16-bit patterns, and
order-preserving on magnitude: for non-NaN patterns `a < b` with the same sign
bit, the decoded binary32 values (`val32S`, in units of `2 ^ (-149)`, the
Infinity pattern sitting above all finite magnitudes) are ordered in the
direction of the shared sign. -/
theorem bfloat2float_inj_mono :
    (∀ a b, a < 2 ^ 16 → b < 2 ^ 16 → bfloat2float a = bfloat2float b → a = b) ∧
    (∀ a b, a < 2 ^ 16 → b < 2 ^ 16 → a >>> 15 = b >>> 15 → isNaNBF16 a = false →
      isNaNBF16 b = false → a < b →
      (if a >>> 15 = 0 then val32S (bfloat2float a) ≤ val32S (bfloat2float b)
       else val32S (bfloat2float b) ≤ val32S (bfloat2float a))) := by
  constructor
  · intro a b ha hb h
    rw [bfloat2float, bfloat2float, kF32BfMantiBitDiff, Nat.mod_eq_of_lt ha,
      Nat.mod_eq_of_lt hb, Nat.shiftLeft_eq, Nat.shiftLeft_eq] at h
    exact Nat.eq_of_mul_eq_mul_right (by norm_num) h
  · intro a b ha hb hsgn hna hnb hab
    rw [isNaNBF16_eq_false_iff] at hna hnb
    simp only [Nat.shiftRight_eq_div_pow] at hsgn ⊢
    have hkey : val32 (a % 2 ^ 15 * 2 ^ 16) < val32 (b % 2 ^ 15 * 2 ^ 16) :=
      val32_strictMono _ _ (by omega)
    have hda : bfloat2float a = a * 2 ^ 16 := by
      rw [bfloat2float, kF32BfMantiBitDiff, Nat.mod_eq_of_lt ha, Nat.shiftLeft_eq]
    have hdb : bfloat2float b = b * 2 ^ 16 := by
      rw [bfloat2float, kF32BfMantiBitDiff, Nat.mod_eq_of_lt hb, Nat.shiftLeft_eq]
    rw [hda, hdb]
    by_cases hs0 : a / 2 ^ 15 = 0
    · rw [if_pos hs0, val32S, val32S, if_pos (show a * 2 ^ 16 < 2 ^ 31 by omega),
        if_pos (show b * 2 ^ 16 < 2 ^ 31 by omega),
        show a * 2 ^ 16 = a % 2 ^ 15 * 2 ^ 16 from by omega,
        show b * 2 ^ 16 = b % 2 ^ 15 * 2 ^ 16 from by omega]
      exact_mod_cast le_of_lt hkey
    · rw [if_neg hs0, val32S, val32S,
        if_neg (show ¬a * 2 ^ 16 < 2 ^ 31 by omega),
        if_neg (show ¬b * 2 ^ 16 < 2 ^ 31 by omega),
        show a * 2 ^ 16 % 2 ^ 31 = a % 2 ^ 15 * 2 ^ 16 from by
          rw [show a * 2 ^ 16 = 2 ^ 31 * (a / 2 ^ 15) + a % 2 ^ 15 * 2 ^ 16 from by omega,
            Nat.mul_add_mod]
          exact Nat.mod_eq_of_lt (by omega),
        show b * 2 ^ 16 % 2 ^ 31 = b % 2 ^ 15 * 2 ^ 16 from by
          rw [show b * 2 ^ 16 = 2 ^ 31 * (b / 2 ^ 15) + b % 2 ^ 15 * 2 ^ 16 from by omega,
            Nat.mul_add_mod]
          exact Nat.mod_eq_of_lt (by omega)]
      omega

/-- Witness for C8: injectivity at `0x3F80` and magnitude order between the
positive patterns `0x3F80 < 0x3F81`. -/
theorem bfloat2float_inj_mono_witness :
    (0x3F80 : Nat) = 0x3F80 ∧
    (if (0x3F80 : Nat) >>> 15 = 0 then
      val32S (bfloat2float 0x3F80) ≤ val32S (bfloat2float 0x3F81)
     else val32S (bfloat2float 0x3F81) ≤ val32S (bfloat2float 0x3F80)) :=
  ⟨bfloat2float_inj_mono.1 0x3F80 0x3F80 (by decide) (by decide) rfl,
   bfloat2float_inj_mono.2 0x3F80 0x3F81 (by decide) (by decide) rfl (by decide) (by decide)
     (by decide)⟩

end Float16bits
